import Mathlib

/-!
Shallow embedding of the `vemigrate` migration engine
(`src/vemigrate/src/lib.rs`).

Conventions of the embedding:
* Rust `u64` migration ids are `Nat` (parsing enforces the `< 2^64` bound,
  exactly as `str::parse::<u64>` does).
* Fallible Rust code returning `Result<T, Error>` is modelled with `Res`,
  which also has a `crash` constructor modelling a Rust panic
  (`unwrap` on an error value, or an out-of-bounds byte slice).
* The filesystem and the `Store` trait object are modelled by the fields of
  the `Migrator` structure: the result of `fs::read_dir`, the contents of
  each file (as the list of its lines, which is what `read_line` + `trim`
  observes), the result of `Store::get_all`, and oracles for the results of
  `Store::exec` (indexed by the number of preceding successful `exec` calls)
  and `Store::add`.
* Side effects on the store are recorded in a trace of `Ev` events;
  an event is appended only when the corresponding call succeeds.
-/

/-- Opaque store error (`Store::Error`), carried around verbatim. -/
abbrev SErr := String

/-- Opaque I/O error (`std::io::Error`), carried around verbatim. -/
abbrev IOErr := String

/-- The library's error enum `vemigrate::Error`. -/
inductive Err where
  | parseMigrationFile (msg : String)
  | store (e : SErr)
  | io (e : IOErr)
deriving DecidableEq

/-- Result of running a piece of the Rust code: a value, a returned
`Err`, or a panic (`crash`). -/
inductive Res (α : Type) where
  | crash
  | err (e : Err)
  | ok (a : α)
deriving DecidableEq

/-- One row of the migration history (`MigrationRow`: `id()` and `is_up()`). -/
structure Row where
  id : Nat
  is_up : Bool
deriving DecidableEq

/-- One observable store side effect: a successful `exec` of a statement, or
a successful `add` of a history event. -/
inductive Ev where
  | exec (q : String)
  | add (id : Nat) (up : Bool)
deriving DecidableEq

def Ev.isExec : Ev → Bool
  | .exec _ => true
  | .add _ _ => false

def Ev.isAdd : Ev → Bool
  | .exec _ => false
  | .add _ _ => true

/-- Number of (successful) `exec` calls recorded in a trace; used to index
the `exec` oracle. -/
def numExec (tr : List Ev) : Nat := (tr.filter Ev.isExec).length

/-- A directory entry of the migrations directory: its file name and
whether its metadata says it is a directory. -/
structure DirEntry where
  name : String
  isDir : Bool
deriving DecidableEq

/-- The `Migrator` together with its environment: the migrations directory
(`fs::read_dir` can fail to open it, and each entry read can itself fail),
the contents of script files keyed by path, and the store's behaviour. -/
structure Migrator where
  dir : Except IOErr (List (Except IOErr DirEntry))
  files : String → Except IOErr (List String)
  getAll : Except SErr (Option (List Row))
  execRes : Nat → String → Option SErr
  addRes : Nat → Bool → Option SErr

def MIGRATION_FILE_UP : String := "up.cql"
def MIGRATION_FILE_DOWN : String := "down.cql"

/-- Whitespace trimming (`str::trim`), written by structural recursion on
the character list so that it evaluates inside the kernel. Rust trims
Unicode `White_Space`; `Char.isWhitespace` covers the ASCII part of it,
which is all the embedding needs. -/
def strTrim (s : String) : String :=
  ⟨((s.data.dropWhile Char.isWhitespace).reverse.dropWhile
      Char.isWhitespace).reverse⟩

/-- First `k` characters of a string (`&line[..2]` on character-boundary
inputs). -/
def strTake (s : String) (k : Nat) : String := ⟨s.data.take k⟩

/-- Last character of a string (`chars().last()`). -/
def lastChar (s : String) : Option Char := s.data.getLast?

/-- Rust `str::parse::<u64>`: optional leading `+`, at least one ASCII
digit, value below `2^64`. -/
def parseU64 (s : String) : Option Nat :=
  let cs := match s.data with
    | '+' :: rest => rest
    | l => l
  if cs.isEmpty then none
  else if cs.all Char.isDigit then
    let v := cs.foldl (fun acc c => acc * 10 + (c.toNat - '0'.toNat)) 0
    if v < 2 ^ 64 then some v else none
  else none

/-- Characters of a directory name before the first `_`. -/
def idPartChars : List Char → List Char
  | [] => []
  | c :: cs => if c = '_' then [] else c :: idPartChars cs

/-- The piece of a directory name before the first `_`
(`splitn(2, '_').next()`). -/
def idPart (s : String) : String := ⟨idPartChars s.data⟩

/-- Whether byte index 2 is a character boundary of `line` with at least two
bytes before it; when it is not, the Rust slice `&line[..2]` panics. -/
def boundaryAt2 (line : String) : Bool :=
  match line.data with
  | [] => false
  | c :: cs =>
    if c.utf8Size == 2 then true
    else if c.utf8Size == 1 then
      match cs with
      | [] => false
      | c2 :: _ => c2.utf8Size == 1
    else false

/-- `is_cql_comment_line`: compares the first two bytes of `line` with
`--` and `//`. The slice `&line[..2]` is taken unconditionally, so the
function panics (`none`) when the line is shorter than two bytes or byte
index 2 falls inside a character. -/
def is_cql_comment_line (line : String) : Option Bool :=
  if boundaryAt2 line then
    some (strTake line 2 == "--" || strTake line 2 == "//")
  else none

/-- Append `t` to the last element of `qs` (`queries.last_mut().unwrap().push_str`). -/
def appendLast : List String → String → List String
  | [], t => [t]
  | [q], t => [q ++ t]
  | q :: qs, t => q :: appendLast qs t

/-- The loop of `parse_cql_file`: one iteration per line, carrying the
accumulated `queries` and the `is_new_query` flag. -/
def parse_cql_loop : List String → List String → Bool → Res (Option (List String))
  | [], queries, _ => .ok (if queries.isEmpty then none else some queries)
  | l :: ls, queries, is_new =>
    let t := strTrim l
    if t.data.isEmpty then parse_cql_loop ls queries is_new
    else
      match is_cql_comment_line t with
      | none => .crash
      | some true => parse_cql_loop ls queries is_new
      | some false =>
        let qs1 := if is_new then queries ++ [""] else queries
        let is_new2 := lastChar t == some ';'
        let qs2 := if qs1.isEmpty then [t] else appendLast qs1 t
        parse_cql_loop ls qs2 is_new2

/-- `parse_cql_file` applied to the lines of an already-opened file. -/
def parse_cql_lines (lines : List String) : Res (Option (List String)) :=
  parse_cql_loop lines [] false

/-- `parse_cql_file`: open the file (an `io::Error` is returned via `?`),
then run the line loop. -/
def parse_cql_file (m : Migrator) (path : String) : Res (Option (List String)) :=
  match m.files path with
  | .error e => .err (.io e)
  | .ok lines => parse_cql_lines lines

/-- Lookup in the reconciled history with default 0
(`history.get(&timestamp).unwrap_or(&0)`). -/
def historyGet (h : List (Nat × Int)) (k : Nat) : Int :=
  match h.find? (fun p => p.1 == k) with
  | some p => p.2
  | none => 0

/-- One `HashMap` entry update of the reconciliation fold: add `inc` to the
counter of `id` if present (`Entry::Occupied`), else insert it
(`Entry::Vacant`). -/
def bump (acc : List (Nat × Int)) (id : Nat) (inc : Int) : List (Nat × Int) :=
  match acc with
  | [] => [(id, inc)]
  | (k, v) :: rest =>
    if k == id then (k, v + inc) :: rest else (k, v) :: bump rest id inc

/-- The fold of `get_migration_history` over the rows returned by
`Store::get_all`. -/
def reconcileRows (rows : List Row) : List (Nat × Int) :=
  rows.foldl (fun acc r => bump acc r.id (if r.is_up then 1 else -1)) []

/-- `get_migration_history`: a store error is wrapped as `Error::Store`;
`None` (no history structure at all) yields the empty mapping. -/
def get_migration_history (g : Except SErr (Option (List Row))) :
    Res (List (Nat × Int)) :=
  match g with
  | .error e => .err (.store e)
  | .ok none => .ok []
  | .ok (some rows) => .ok (reconcileRows rows)

/-- Path of the script file inside a migration directory entry
(`elem.path()` followed by `push` of the script file name). -/
def entry_path (e : DirEntry) (up : Bool) : String :=
  e.name ++ "/" ++ (if up then MIGRATION_FILE_UP else MIGRATION_FILE_DOWN)

/-- The per-entry pass of `filter_migrations`, in iteration order: each
consumed `ReadDir` item is `unwrap`ped (an `Err` item panics), non-directories
are filtered out, names whose part before the first `_` does not parse as a
`u64` are skipped, eligibility is decided from the reconciled history
(`counter == 0` for up, `counter == 1` for down), and the script of each
eligible entry is parsed; `collect::<Result<_>>` stops at the first error. -/
def filter_collect (m : Migrator) (up : Bool) (history : List (Nat × Int)) :
    List (Except IOErr DirEntry) → Res (List (Nat × List String))
  | [] => .ok []
  | .error _ :: _ => .crash
  | .ok e :: rest =>
    if !e.isDir then filter_collect m up history rest
    else
      match parseU64 (idPart e.name) with
      | none => filter_collect m up history rest
      | some ts =>
        let counter := historyGet history ts
        if (up && counter == 0) || (!up && counter == 1) then
          match parse_cql_file m (entry_path e up) with
          | .crash => .crash
          | .err er => .err er
          | .ok none =>
            .err (.parseMigrationFile ("no CQL found in " ++ entry_path e up))
          | .ok (some qs) =>
            match filter_collect m up history rest with
            | .ok acc => .ok ((ts, qs) :: acc)
            | r => r
        else filter_collect m up history rest

/-- `filter_migrations`: collect the eligible candidates, return `None` when
there are none, and otherwise sort ascending by id for up and descending for
down. Rust's `sort_by` is a stable sort, modelled by the stable
`insertionSort`. -/
def filter_migrations (m : Migrator) (entries : List (Except IOErr DirEntry))
    (history : List (Nat × Int)) (up : Bool) :
    Res (Option (List (Nat × List String))) :=
  match filter_collect m up history entries with
  | .crash => .crash
  | .err e => .err e
  | .ok res =>
    if res.isEmpty then .ok none
    else if up then
      .ok (some (List.insertionSort (fun a b => a.1 ≤ b.1) res))
    else
      .ok (some (List.insertionSort (fun a b => b.1 ≤ a.1) res))

/-- The statement loop of `migrate_one`: each query is passed to
`Store::exec`; a failure is wrapped as `Error::Store` and returned at once. -/
def exec_queries (m : Migrator) (tr : List Ev) :
    List String → Res Unit × List Ev
  | [] => (.ok (), tr)
  | q :: qs =>
    match m.execRes (numExec tr) q with
    | some e => (.err (.store e), tr)
    | none => exec_queries m (tr ++ [Ev.exec q]) qs

/-- `migrate_one`: run every statement, then (only if `add_history`) record
the history event via `Store::add`. -/
def migrate_one (m : Migrator) (tr : List Ev) (ts : Nat) (qs : List String)
    (up add_history : Bool) : Res Unit × List Ev :=
  match exec_queries m tr qs with
  | (.ok _, tr2) =>
    if add_history then
      match m.addRes ts up with
      | some e => (.err (.store e), tr2)
      | none => (.ok (), tr2 ++ [Ev.add ts up])
    else (.ok (), tr2)
  | r => r

/-- The candidate loop of `execute_migrations` over the first `take_n`
candidates. -/
def run_migrations (m : Migrator) (tr : List Ev) (up add_history : Bool) :
    List (Nat × List String) → Res Unit × List Ev
  | [] => (.ok (), tr)
  | (ts, qs) :: rest =>
    match migrate_one m tr ts qs up add_history with
    | (.ok _, tr2) => run_migrations m tr2 up add_history rest
    | r => r

/-- `execute_migrations`: pick `(last_id, take_n)` — with `n = Some v` and
more candidates than `v`, `last_id` is the id at index `v` and `take_n = v`,
otherwise the last id and the full length (on an empty candidate list the
`unwrap` of `last()`/`get(v)` panics) — set
`add_history = up || take_n != len`, run the first `take_n` candidates and
return `Some(last_id)`. -/
def execute_migrations (m : Migrator) (tr : List Ev)
    (migs : List (Nat × List String)) (up : Bool) (n : Option Nat) :
    Res (Option Nat) × List Ev :=
  match migs with
  | [] => (.crash, tr)
  | m0 :: rest =>
    let pick : Nat × Nat :=
      match n with
      | some v =>
        if h : v < (m0 :: rest).length then (((m0 :: rest).get ⟨v, h⟩).1, v)
        else (((m0 :: rest).getLast (List.cons_ne_nil m0 rest)).1, (m0 :: rest).length)
      | none =>
        (((m0 :: rest).getLast (List.cons_ne_nil m0 rest)).1, (m0 :: rest).length)
    let add_history := up || (pick.2 != (m0 :: rest).length)
    match run_migrations m tr up add_history ((m0 :: rest).take pick.2) with
    | (.ok _, tr2) => (.ok (some pick.1), tr2)
    | (.err e, tr2) => (.err e, tr2)
    | (.crash, tr2) => (.crash, tr2)

/-- `migrate_n`: read the migrations directory (an open failure is returned
via `?` before anything else happens), fetch and reconcile the history,
filter, and either execute the candidates or return `Ok(None)`. -/
def migrate_n (m : Migrator) (up : Bool) (n : Option Nat) :
    Res (Option Nat) × List Ev :=
  match m.dir with
  | .error e => (.err (.io e), [])
  | .ok entries =>
    match get_migration_history m.getAll with
    | .crash => (.crash, [])
    | .err e => (.err e, [])
    | .ok history =>
      match filter_migrations m entries history up with
      | .crash => (.crash, [])
      | .err e => (.err e, [])
      | .ok none => (.ok none, [])
      | .ok (some migs) => execute_migrations m [] migs up n

def migrate_up (m : Migrator) : Res (Option Nat) × List Ev :=
  migrate_n m true none

def migrate_down (m : Migrator) : Res (Option Nat) × List Ev :=
  migrate_n m false none

def migrate_up_n (m : Migrator) (v : Nat) : Res (Option Nat) × List Ev :=
  migrate_n m true (some v)

def migrate_down_n (m : Migrator) (v : Nat) : Res (Option Nat) × List Ev :=
  migrate_n m false (some v)

/-! ## Derived descriptions of the orchestrator's behaviour -/

/-- Events produced by one successfully executed candidate: its statements
in order, then (when history is recorded) its single history event. -/
def cand_trace (up addH : Bool) (c : Nat × List String) : List Ev :=
  c.2.map Ev.exec ++ (if addH then [Ev.add c.1 up] else [])

/-- Events produced by a successful run over a candidate list. -/
def full_trace (up addH : Bool) (cands : List (Nat × List String)) : List Ev :=
  (cands.map (cand_trace up addH)).flatten

/-- The execute count of an operation: `min(n, len)` when `n` is given,
else `len`. -/
def take_count (len : Nat) (n : Option Nat) : Nat :=
  match n with
  | none => len
  | some v => if v < len then v else len

theorem exec_queries_ok (m : Migrator) (hex : ∀ k q, m.execRes k q = none)
    (qs : List String) (tr : List Ev) :
    exec_queries m tr qs = (.ok (), tr ++ qs.map Ev.exec) := by
  induction qs generalizing tr with
  | nil => simp [exec_queries]
  | cons q qs ih => simp [exec_queries, hex, ih]

theorem migrate_one_ok (m : Migrator) (hex : ∀ k q, m.execRes k q = none)
    (hadd : ∀ t u, m.addRes t u = none) (tr : List Ev) (ts : Nat)
    (qs : List String) (up addH : Bool) :
    migrate_one m tr ts qs up addH = (.ok (), tr ++ cand_trace up addH (ts, qs)) := by
  cases addH <;>
    simp [migrate_one, exec_queries_ok m hex, cand_trace, hadd]

theorem run_migrations_ok (m : Migrator) (hex : ∀ k q, m.execRes k q = none)
    (hadd : ∀ t u, m.addRes t u = none) (up addH : Bool)
    (cands : List (Nat × List String)) (tr : List Ev) :
    run_migrations m tr up addH cands = (.ok (), tr ++ full_trace up addH cands) := by
  induction cands generalizing tr with
  | nil => simp [run_migrations, full_trace]
  | cons c cs ih =>
    cases c with
    | mk ts qs =>
      simp [run_migrations, migrate_one_ok m hex hadd, ih, full_trace]

theorem execute_migrations_ok_none (m : Migrator)
    (hex : ∀ k q, m.execRes k q = none) (hadd : ∀ t u, m.addRes t u = none)
    (m0 : Nat × List String) (rest : List (Nat × List String)) (up : Bool) :
    execute_migrations m [] (m0 :: rest) up none =
      (.ok (some ((m0 :: rest).getLast (List.cons_ne_nil m0 rest)).1),
       full_trace up up (m0 :: rest)) := by
  simp [execute_migrations, run_migrations_ok m hex hadd,
    List.take_of_length_le (Nat.le_refl _)]

theorem execute_migrations_ok_ge (m : Migrator)
    (hex : ∀ k q, m.execRes k q = none) (hadd : ∀ t u, m.addRes t u = none)
    (m0 : Nat × List String) (rest : List (Nat × List String)) (up : Bool)
    (v : Nat) (hv : (m0 :: rest).length ≤ v) :
    execute_migrations m [] (m0 :: rest) up (some v) =
      (.ok (some ((m0 :: rest).getLast (List.cons_ne_nil m0 rest)).1),
       full_trace up up (m0 :: rest)) := by
  have hnot : ¬ v < (m0 :: rest).length := Nat.not_lt.mpr hv
  simp only [execute_migrations]
  rw [dif_neg hnot]
  simp [run_migrations_ok m hex hadd]

theorem execute_migrations_ok_lt (m : Migrator)
    (hex : ∀ k q, m.execRes k q = none) (hadd : ∀ t u, m.addRes t u = none)
    (m0 : Nat × List String) (rest : List (Nat × List String)) (up : Bool)
    (v : Nat) (hv : v < (m0 :: rest).length) :
    execute_migrations m [] (m0 :: rest) up (some v) =
      (.ok (some ((m0 :: rest).get ⟨v, hv⟩).1),
       full_trace up true ((m0 :: rest).take v)) := by
  have hne : (v != (m0 :: rest).length) = true := bne_iff_ne.mpr (Nat.ne_of_lt hv)
  simp only [execute_migrations]
  rw [dif_pos hv]
  simp only [List.length_cons] at hne
  simp [run_migrations_ok m hex hadd, hne]

/-- Adds among a list of exec events: none. -/
theorem filter_isAdd_map_exec (qs : List String) :
    (qs.map Ev.exec).filter Ev.isAdd = [] := by
  induction qs with
  | nil => rfl
  | cons q qs ih => simp [Ev.isAdd, ih]

/-- History events among the trace of a successful run: one per executed
candidate when `addH`, none otherwise. -/
theorem full_trace_filter_isAdd (up addH : Bool)
    (cands : List (Nat × List String)) :
    (full_trace up addH cands).filter Ev.isAdd =
      if addH then cands.map (fun c => Ev.add c.1 up) else [] := by
  induction cands with
  | nil => cases addH <;> simp [full_trace]
  | cons c cs ih =>
    have h1 : (cand_trace up addH c).filter Ev.isAdd =
        if addH then [Ev.add c.1 up] else [] := by
      cases addH <;>
        simp [cand_trace, List.filter_append, filter_isAdd_map_exec, Ev.isAdd]
    have h2 : full_trace up addH (c :: cs) =
        cand_trace up addH c ++ full_trace up addH cs := by
      simp [full_trace]
    rw [h2, List.filter_append, h1, ih]
    cases addH <;> simp

/-! ## Reconciler lemmas -/

/-- Number of up events for `id` in a row list. -/
def upCount (rows : List Row) (id : Nat) : Nat :=
  (rows.filter (fun r => r.id == id && r.is_up)).length

/-- Number of down events for `id` in a row list. -/
def downCount (rows : List Row) (id : Nat) : Nat :=
  (rows.filter (fun r => r.id == id && !r.is_up)).length

theorem historyGet_cons (a : Nat) (c : Int) (rest : List (Nat × Int)) (k : Nat) :
    historyGet ((a, c) :: rest) k = if a = k then c else historyGet rest k := by
  by_cases h : a = k
  · subst h; simp [historyGet, List.find?]
  · have hb : (a == k) = false := beq_eq_false_iff_ne.mpr h
    simp [historyGet, List.find?, hb, h]

theorem historyGet_bump (acc : List (Nat × Int)) (i : Nat) (inc : Int) (k : Nat) :
    historyGet (bump acc i inc) k =
      historyGet acc k + (if i = k then inc else 0) := by
  induction acc with
  | nil =>
    rw [show bump [] i inc = [(i, inc)] from rfl, historyGet_cons]
    by_cases h : i = k <;> simp [historyGet, h]
  | cons p rest ih =>
    obtain ⟨a, c⟩ := p
    by_cases hai : a = i
    · have hb : (a == i) = true := by simpa using hai
      rw [show bump ((a, c) :: rest) i inc = (a, c + inc) :: rest from by
        simp [bump, hb]]
      rw [historyGet_cons, historyGet_cons]
      by_cases hak : a = k
      · have hik : i = k := hai ▸ hak
        simp [hak, hik]
      · have hik : ¬ i = k := fun hh => hak (hai.symm ▸ hh ▸ rfl)
        simp [hak, hik]
    · have hb : (a == i) = false := by simpa using hai
      rw [show bump ((a, c) :: rest) i inc = (a, c) :: bump rest i inc from by
        simp [bump, hb]]
      rw [historyGet_cons, historyGet_cons]
      by_cases hak : a = k
      · have hik : ¬ i = k := fun hh => hai (by rw [hak, hh])
        simp [hak, hik]
      · simp [hak, ih]

theorem net_cons (i : Nat) (u : Bool) (rs : List Row) (k : Nat) :
    (upCount (⟨i, u⟩ :: rs) k : Int) - downCount (⟨i, u⟩ :: rs) k =
      (if i = k then (if u then 1 else -1) else 0) +
        ((upCount rs k : Int) - downCount rs k) := by
  by_cases h : i = k <;> cases u <;>
    simp [upCount, downCount, List.filter_cons, h] <;> omega

theorem historyGet_reconcile_fold (rows : List Row) (acc : List (Nat × Int))
    (k : Nat) :
    historyGet
        (rows.foldl (fun a r => bump a r.id (if r.is_up then 1 else -1)) acc) k =
      historyGet acc k + ((upCount rows k : Int) - downCount rows k) := by
  induction rows generalizing acc with
  | nil => simp [upCount, downCount]
  | cons r rs ih =>
    obtain ⟨i, u⟩ := r
    rw [List.foldl_cons, ih, historyGet_bump, net_cons]
    ring

/-- Index 0 is in bounds for a cons list; used for `n = Some 0`. -/
theorem execute_migrations_zero (m : Migrator) (m0 : Nat × List String)
    (rest : List (Nat × List String)) (up : Bool) (tr : List Ev) :
    execute_migrations m tr (m0 :: rest) up (some 0) = (.ok (some m0.1), tr) := by
  have h0 : 0 < (m0 :: rest).length := Nat.succ_pos _
  simp only [execute_migrations]
  rw [dif_pos h0]
  simp [run_migrations]

/-- C6: the Reconciler maps each id to `count(up) − count(down)`, an absent
id has net state 0, a `None` answer from the store yields the empty mapping
(not an error), and one up plus one down event for an id yields net state 0. -/
theorem claim_C6_reconciler (rows : List Row) (id : Nat) :
    historyGet (reconcileRows rows) id =
      (upCount rows id : Int) - downCount rows id
    ∧ ((∀ r ∈ rows, r.id ≠ id) → historyGet (reconcileRows rows) id = 0)
    ∧ get_migration_history (Except.ok none) = .ok []
    ∧ historyGet (reconcileRows [⟨id, true⟩, ⟨id, false⟩]) id = 0 := by
  have hmain : ∀ rs : List Row, historyGet (reconcileRows rs) id =
      (upCount rs id : Int) - downCount rs id := by
    intro rs
    have h := historyGet_reconcile_fold rs [] id
    simpa [reconcileRows, historyGet] using h
  refine ⟨hmain rows, ?_, rfl, ?_⟩
  · intro habs
    have hup : upCount rows id = 0 := by
      simp only [upCount, List.length_eq_zero]
      rw [List.filter_eq_nil_iff]
      intro r hr
      simp [habs r hr]
    have hdown : downCount rows id = 0 := by
      simp only [downCount, List.length_eq_zero]
      rw [List.filter_eq_nil_iff]
      intro r hr
      simp [habs r hr]
    rw [hmain rows, hup, hdown]
    ring
  · rw [hmain [⟨id, true⟩, ⟨id, false⟩]]
    simp [upCount, downCount, List.filter_cons]

/-- C6 witness at a concrete history. -/
theorem claim_C6_witness :
    historyGet (reconcileRows [⟨7, true⟩, ⟨9, true⟩, ⟨9, false⟩]) 9 =
        (upCount [⟨7, true⟩, ⟨9, true⟩, ⟨9, false⟩] 9 : Int) -
          downCount [⟨7, true⟩, ⟨9, true⟩, ⟨9, false⟩] 9
    ∧ historyGet (reconcileRows [⟨7, true⟩, ⟨9, true⟩, ⟨9, false⟩]) 4 = 0 := by
  refine ⟨(claim_C6_reconciler [⟨7, true⟩, ⟨9, true⟩, ⟨9, false⟩] 9).1, ?_⟩
  exact (claim_C6_reconciler [⟨7, true⟩, ⟨9, true⟩, ⟨9, false⟩] 4).2.1
    (by decide)

/-- C2: with a store that accepts every call, a down run that consumes the
whole candidate list records no history events; a partial down run records
exactly one down event per executed candidate, in order; an up run records
exactly one up event per executed candidate. -/
theorem claim_C2_history_events (m : Migrator)
    (hex : ∀ k q, m.execRes k q = none) (hadd : ∀ t u, m.addRes t u = none)
    (m0 : Nat × List String) (rest : List (Nat × List String)) (n : Option Nat) :
    (take_count (m0 :: rest).length n = (m0 :: rest).length →
      (execute_migrations m [] (m0 :: rest) false n).2.filter Ev.isAdd = [])
    ∧ (take_count (m0 :: rest).length n < (m0 :: rest).length →
      (execute_migrations m [] (m0 :: rest) false n).2.filter Ev.isAdd =
        ((m0 :: rest).take (take_count (m0 :: rest).length n)).map
          (fun c => Ev.add c.1 false))
    ∧ (execute_migrations m [] (m0 :: rest) true n).2.filter Ev.isAdd =
        ((m0 :: rest).take (take_count (m0 :: rest).length n)).map
          (fun c => Ev.add c.1 true) := by
  match n with
  | none =>
    refine ⟨fun _ => ?_, fun habs => ?_, ?_⟩
    · rw [execute_migrations_ok_none m hex hadd]
      simp [full_trace_filter_isAdd]
    · exact absurd habs (by simp [take_count])
    · rw [execute_migrations_ok_none m hex hadd]
      simp [full_trace_filter_isAdd, take_count]
  | some v =>
    by_cases hv : v < (m0 :: rest).length
    · have htc : take_count (m0 :: rest).length (some v) = v := by
        simp only [take_count]
        rw [if_pos hv]
      refine ⟨fun habs => ?_, fun _ => ?_, ?_⟩
      · rw [htc] at habs
        exact absurd habs (Nat.ne_of_lt hv)
      · rw [execute_migrations_ok_lt m hex hadd _ _ _ _ hv, htc]
        simp [full_trace_filter_isAdd]
      · rw [execute_migrations_ok_lt m hex hadd _ _ _ _ hv, htc]
        simp [full_trace_filter_isAdd]
    · have hge : (m0 :: rest).length ≤ v := Nat.not_lt.mp hv
      have htc : take_count (m0 :: rest).length (some v) =
          (m0 :: rest).length := by
        simp only [take_count]
        rw [if_neg hv]
      refine ⟨fun _ => ?_, fun habs => ?_, ?_⟩
      · rw [execute_migrations_ok_ge m hex hadd _ _ _ _ hge]
        simp [full_trace_filter_isAdd]
      · rw [htc] at habs
        exact absurd habs (Nat.lt_irrefl _)
      · rw [execute_migrations_ok_ge m hex hadd _ _ _ _ hge, htc]
        simp [full_trace_filter_isAdd, take_count]

/-- Concrete environment with two pending migrations `100_a` and `200_b`,
an empty history, and a store that accepts every call. -/
def mTwo : Migrator where
  dir := .ok [.ok ⟨"100_a", true⟩, .ok ⟨"200_b", true⟩]
  files := fun p =>
    if p == "100_a/up.cql" then .ok ["create a;"]
    else if p == "200_b/up.cql" then .ok ["create b;"]
    else .error "missing"
  getAll := .ok none
  execRes := fun _ _ => none
  addRes := fun _ _ => none

/-- C2 witness: a full down run over one candidate records nothing, a
partial down run and an up run record one event per executed candidate. -/
theorem claim_C2_witness :
    (execute_migrations mTwo [] [(100, ["drop a;"])] false none).2.filter
        Ev.isAdd = []
    ∧ (execute_migrations mTwo [] [(100, ["drop a;"]), (50, ["drop b;"])]
        false (some 1)).2.filter Ev.isAdd = [Ev.add 100 false]
    ∧ (execute_migrations mTwo [] [(100, ["create a;"])] true
        none).2.filter Ev.isAdd = [Ev.add 100 true] := by
  have h1 := (claim_C2_history_events mTwo (fun _ _ => rfl) (fun _ _ => rfl)
    (100, ["drop a;"]) [] none).1 (by decide)
  have h2 := (claim_C2_history_events mTwo (fun _ _ => rfl) (fun _ _ => rfl)
    (100, ["drop a;"]) [(50, ["drop b;"])] (some 1)).2.1 (by decide)
  have h3 := (claim_C2_history_events mTwo (fun _ _ => rfl) (fun _ _ => rfl)
    (100, ["create a;"]) [] none).2.2
  refine ⟨h1, ?_, ?_⟩
  · rw [h2]; decide
  · rw [h3]; decide

/-- C1 (amended): on success the operation returns `Some(id)` where, with no
bound or a bound at least the candidate count, `id` is the id of the last
candidate — which the trace shows is the last one executed — while with a
bound `v` strictly below the candidate count only the first `v` candidates
are executed but `id` is the id of the candidate at index `v`, the first one
NOT executed (the off-by-one the claim misses). -/
theorem claim_C1_boundary_id (m : Migrator)
    (hex : ∀ k q, m.execRes k q = none) (hadd : ∀ t u, m.addRes t u = none)
    (m0 : Nat × List String) (rest : List (Nat × List String)) (up : Bool) :
    (execute_migrations m [] (m0 :: rest) up none =
      (.ok (some ((m0 :: rest).getLast (List.cons_ne_nil m0 rest)).1),
       full_trace up up (m0 :: rest)))
    ∧ (∀ v, (m0 :: rest).length ≤ v →
        execute_migrations m [] (m0 :: rest) up (some v) =
          (.ok (some ((m0 :: rest).getLast (List.cons_ne_nil m0 rest)).1),
           full_trace up up (m0 :: rest)))
    ∧ (∀ v (h : v < (m0 :: rest).length),
        execute_migrations m [] (m0 :: rest) up (some v) =
          (.ok (some ((m0 :: rest).get ⟨v, h⟩).1),
           full_trace up true ((m0 :: rest).take v))) := by
  refine ⟨execute_migrations_ok_none m hex hadd m0 rest up, ?_, ?_⟩
  · intro v hv
    exact execute_migrations_ok_ge m hex hadd m0 rest up v hv
  · intro v hv
    exact execute_migrations_ok_lt m hex hadd m0 rest up v hv

/-- C1 witness: at two candidates and bound 1, the first candidate is
executed and the id of the second is returned. -/
theorem claim_C1_witness :
    execute_migrations mTwo [] [(100, ["create a;"]), (200, ["create b;"])]
        true (some 1) =
      (Res.ok (some 200), [Ev.exec "create a;", Ev.add 100 true]) := by
  have h := (claim_C1_boundary_id mTwo (fun _ _ => rfl) (fun _ _ => rfl)
    (100, ["create a;"]) [(200, ["create b;"])] true).2.2 1 (by decide)
  rw [h]
  decide

/-- C1 counterexample: `migrate_up_n(1)` on two pending migrations 100 and
200 executes exactly migration 100 (its statement and history event are the
whole trace), yet returns `Some 200`, not the id 100 of the last migration
actually executed (the 1st candidate in selection order). -/
theorem claim_C1_cex :
    migrate_up_n mTwo 1 =
      (Res.ok (some 200), [Ev.exec "create a;", Ev.add 100 true])
    ∧ (200 : Nat) ≠ 100 := by
  decide

/-- C3 (amended): `migrate_up_n(0)` with at least one pending candidate
executes no statements and records no events (the trace is empty), but it
returns `Ok(Some(id))` for the id of the first pending candidate — not the
`Ok(None)` "none executed" value that a run with nothing pending returns. -/
theorem claim_C3_up_zero (m : Migrator) (entries : List (Except IOErr DirEntry))
    (history : List (Nat × Int)) (c0 : Nat × List String)
    (cs : List (Nat × List String))
    (hdir : m.dir = .ok entries)
    (hhist : get_migration_history m.getAll = .ok history)
    (hfil : filter_migrations m entries history true = .ok (some (c0 :: cs))) :
    migrate_up_n m 0 = (.ok (some c0.1), []) := by
  simp only [migrate_up_n, migrate_n, hdir, hhist, hfil]
  exact execute_migrations_zero m c0 cs true []

/-- C3 witness: the amended statement at a concrete environment with one
pending migration. -/
theorem claim_C3_witness :
    migrate_up_n mTwo 0 = (Res.ok (some 100), []) := by
  exact claim_C3_up_zero mTwo
    [.ok ⟨"100_a", true⟩, .ok ⟨"200_b", true⟩] []
    (100, ["create a;"]) [(200, ["create b;"])] rfl rfl (by decide)

/-- C3 counterexample: the claim says `migrate_up_n(0)` on a directory with
a pending migration returns the same value as when nothing is pending,
namely `Ok(None)`; the code instead returns `Ok(Some 100)`. -/
theorem claim_C3_cex :
    migrate_up_n mTwo 0 = (Res.ok (some 100), [])
    ∧ (Res.ok (some 100) : Res (Option Nat)) ≠ Res.ok none := by
  decide

/-! ## Parser: reference semantics following the spec's description -/

/-- A comment line as the spec describes it: its first two characters are
`--` or `//`. -/
def spec_comment (t : String) : Bool :=
  strTake t 2 == "--" || strTake t 2 == "//"

/-- Statement list of a script as the spec describes the parser: comment
and blank (post-trim) lines are skipped; a non-comment line ending (after
trim) with `;` terminates the current statement; a non-terminated line is
concatenated, with nothing inserted, onto whatever statement its following
lines form; the final statement is returned as-is even without `;`;
statements appear in file order. -/
def stmts_of : List String → List String
  | [] => []
  | l :: ls =>
    let t := strTrim l
    if t.data.isEmpty || spec_comment t then stmts_of ls
    else if lastChar t == some ';' then t :: stmts_of ls
    else
      match stmts_of ls with
      | [] => [t]
      | s :: ss => (t ++ s) :: ss

/-- A line on which `is_cql_comment_line` does not panic: blank after trim
(never reaches the comment check) or at least two bytes with a character
boundary at byte 2. -/
def good_line (l : String) : Bool :=
  (strTrim l).data.isEmpty || (is_cql_comment_line (strTrim l)).isSome

/-- A line the parser skips: blank after trim, or a comment line. -/
def skippable_line (l : String) : Bool :=
  (strTrim l).data.isEmpty || (is_cql_comment_line (strTrim l) == some true)

def emptyToNone (r : List String) : Option (List String) :=
  if r.isEmpty then none else some r

/-- How an open statement buffer combines with the statements formed by the
remaining lines: when the buffer is closed (`is_new`) the buffered
statements simply precede them; when it is open, its last element is the
prefix of the first remaining statement. -/
def combine (qs : List String) (is_new : Bool) (rest : List String) :
    List String :=
  if is_new then qs ++ rest
  else
    match qs, rest with
    | [], _ => rest
    | _ :: _, [] => qs
    | _ :: _, r :: rs => appendLast qs r ++ rs

theorem appendLast_snoc (xs : List String) (x t : String) :
    appendLast (xs ++ [x]) t = xs ++ [x ++ t] := by
  induction xs with
  | nil => rfl
  | cons a xs ih =>
    cases xs with
    | nil => rfl
    | cons b xs => simpa [appendLast] using ih

theorem appendLast_ne_nil (qs : List String) (t : String) :
    appendLast qs t ≠ [] := by
  cases qs with
  | nil => simp [appendLast]
  | cons q qs => cases qs <;> simp [appendLast]

theorem appendLast_appendLast (qs : List String) (t s : String) :
    appendLast (appendLast qs t) s = appendLast qs (t ++ s) := by
  induction qs with
  | nil => simp [appendLast, String.append_assoc]
  | cons q qs ih =>
    cases qs with
    | nil => simp [appendLast, String.append_assoc]
    | cons b qs =>
      have hne := appendLast_ne_nil (b :: qs) t
      rw [show appendLast (q :: b :: qs) t = q :: appendLast (b :: qs) t
        from rfl]
      cases hap : appendLast (b :: qs) t with
      | nil => exact absurd hap hne
      | cons a as =>
        rw [show appendLast (q :: a :: as) s = q :: appendLast (a :: as) s
          from rfl]
        rw [show appendLast (q :: b :: qs) (t ++ s) =
          q :: appendLast (b :: qs) (t ++ s) from rfl]
        rw [← hap, ih]

theorem combine_rest_nil (qs : List String) (b : Bool) :
    combine qs b [] = qs := by
  cases b <;> cases qs <;> simp [combine]

theorem combine_false_cons (qs : List String) (hqs : qs ≠ []) (r : String)
    (rs : List String) :
    combine qs false (r :: rs) = appendLast qs r ++ rs := by
  cases qs with
  | nil => exact absurd rfl hqs
  | cons q qr => simp [combine]

theorem combine_true (qs rest : List String) :
    combine qs true rest = qs ++ rest := by
  simp [combine]

theorem combine_nil_false (rest : List String) :
    combine [] false rest = rest := by
  cases rest <;> simp [combine]

theorem spec_comment_of_some_true (t : String)
    (h : is_cql_comment_line t = some true) : spec_comment t = true := by
  unfold is_cql_comment_line at h
  by_cases hb : boundaryAt2 t
  · rw [if_pos hb] at h
    simpa [spec_comment] using Option.some.inj h
  · rw [if_neg hb] at h
    exact absurd h (by simp)

theorem spec_comment_of_some_false (t : String)
    (h : is_cql_comment_line t = some false) : spec_comment t = false := by
  unfold is_cql_comment_line at h
  by_cases hb : boundaryAt2 t
  · rw [if_pos hb] at h
    simpa [spec_comment] using Option.some.inj h
  · rw [if_neg hb] at h
    exact absurd h (by simp)

/-- One content line advances the machine state exactly as the reference
semantics prepends the line to the statements of the remaining lines. -/
theorem combine_step (qs : List String) (is_new b2 : Bool) (t : String)
    (rest : List String) :
    combine
      (if (if is_new then qs ++ [""] else qs).isEmpty then [t]
       else appendLast (if is_new then qs ++ [""] else qs) t) b2 rest =
    combine qs is_new
      (if b2 then t :: rest
       else
         match rest with
         | [] => [t]
         | s :: ss => (t ++ s) :: ss) := by
  cases is_new with
  | false =>
    cases qs with
    | nil =>
      cases b2 with
      | true =>
        show combine [t] true rest = combine [] false (t :: rest)
        rw [combine_true, combine_nil_false]
        rfl
      | false =>
        cases rest with
        | nil =>
          show combine [t] false [] = combine [] false [t]
          rw [combine_rest_nil, combine_nil_false]
        | cons s ss =>
          show combine [t] false (s :: ss) = combine [] false ((t ++ s) :: ss)
          rw [combine_false_cons [t] (by simp) s ss, combine_nil_false]
          rfl
    | cons q qr =>
      have hA : appendLast (q :: qr) t ≠ [] := appendLast_ne_nil _ _
      cases b2 with
      | true =>
        show combine (appendLast (q :: qr) t) true rest =
          combine (q :: qr) false (t :: rest)
        rw [combine_true, combine_false_cons (q :: qr) (by simp) t rest]
      | false =>
        cases rest with
        | nil =>
          show combine (appendLast (q :: qr) t) false [] =
            combine (q :: qr) false [t]
          rw [combine_rest_nil, combine_false_cons (q :: qr) (by simp) t []]
          simp
        | cons s ss =>
          show combine (appendLast (q :: qr) t) false (s :: ss) =
            combine (q :: qr) false ((t ++ s) :: ss)
          rw [combine_false_cons (appendLast (q :: qr) t) hA s ss,
            combine_false_cons (q :: qr) (by simp) (t ++ s) ss,
            appendLast_appendLast]
  | true =>
    have hsnoc : appendLast (qs ++ [""]) t = qs ++ [t] := by
      rw [appendLast_snoc]
      simp [String.empty_append]
    have hstep :
        (if (if true then qs ++ [""] else qs).isEmpty then [t]
         else appendLast (if true then qs ++ [""] else qs) t) = qs ++ [t] := by
      rw [if_pos rfl]
      rw [if_neg (by simp : ¬((qs ++ [""]).isEmpty = true))]
      exact hsnoc
    rw [show (if (if (true : Bool) then qs ++ [""] else qs).isEmpty then [t]
         else appendLast (if (true : Bool) then qs ++ [""] else qs) t) =
           qs ++ [t] from hstep]
    cases b2 with
    | true =>
      show combine (qs ++ [t]) true rest = combine qs true (t :: rest)
      rw [combine_true, combine_true]
      simp
    | false =>
      cases rest with
      | nil =>
        show combine (qs ++ [t]) false [] = combine qs true [t]
        rw [combine_rest_nil, combine_true]
      | cons s ss =>
        show combine (qs ++ [t]) false (s :: ss) =
          combine qs true ((t ++ s) :: ss)
        rw [combine_false_cons (qs ++ [t]) (by simp) s ss,
          combine_true, appendLast_snoc]
        simp

/-- The parser loop agrees with the reference semantics on crash-free
input: the final statement list is the open buffer combined with the
statements of the remaining lines. -/
theorem parse_loop_spec (ls : List String) :
    ∀ qs is_new, (∀ l ∈ ls, good_line l = true) →
      parse_cql_loop ls qs is_new =
        .ok (emptyToNone (combine qs is_new (stmts_of ls))) := by
  induction ls with
  | nil =>
    intro qs is_new _
    rw [show stmts_of [] = [] from rfl, combine_rest_nil]
    rfl
  | cons l ls ih =>
    intro qs is_new hg
    have hgl : good_line l = true := hg l (by simp)
    have hgs : ∀ x ∈ ls, good_line x = true := fun x hx =>
      hg x (List.mem_cons_of_mem l hx)
    by_cases hb : (strTrim l).data.isEmpty
    · have h1 : parse_cql_loop (l :: ls) qs is_new =
          parse_cql_loop ls qs is_new := by
        simp only [parse_cql_loop, hb, if_true]
      have h2 : stmts_of (l :: ls) = stmts_of ls := by
        simp only [stmts_of, hb, Bool.true_or, if_true]
      rw [h1, h2]
      exact ih qs is_new hgs
    · have hsome : (is_cql_comment_line (strTrim l)).isSome = true := by
        unfold good_line at hgl
        rcases Bool.or_eq_true_iff.mp hgl with h | h
        · exact absurd h hb
        · exact h
      obtain ⟨b, hbb⟩ := Option.isSome_iff_exists.mp hsome
      have hbf : (strTrim l).data.isEmpty = false := Bool.not_eq_true _ |>.mp hb
      cases b with
      | true =>
        have hsc : spec_comment (strTrim l) = true :=
          spec_comment_of_some_true _ hbb
        have h1 : parse_cql_loop (l :: ls) qs is_new =
            parse_cql_loop ls qs is_new := by
          simp only [parse_cql_loop, hbf, Bool.false_eq_true, if_false, hbb]
        have h2 : stmts_of (l :: ls) = stmts_of ls := by
          simp only [stmts_of, hbf, hsc, Bool.false_or, if_true]
        rw [h1, h2]
        exact ih qs is_new hgs
      | false =>
        have hsc : spec_comment (strTrim l) = false :=
          spec_comment_of_some_false _ hbb
        have h1 : parse_cql_loop (l :: ls) qs is_new =
            parse_cql_loop ls
              (if (if is_new then qs ++ [""] else qs).isEmpty then [strTrim l]
               else appendLast (if is_new then qs ++ [""] else qs) (strTrim l))
              (lastChar (strTrim l) == some ';') := by
          simp only [parse_cql_loop, hbf, Bool.false_eq_true, if_false, hbb]
        have h2 : stmts_of (l :: ls) =
            (if (lastChar (strTrim l) == some ';') then
              strTrim l :: stmts_of ls
             else
               match stmts_of ls with
               | [] => [strTrim l]
               | s :: ss => (strTrim l ++ s) :: ss) := by
          simp only [stmts_of, hbf, hsc, Bool.false_or, Bool.false_eq_true,
            if_false]
        rw [h1, ih _ _ hgs, h2, combine_step]

/-- C7: on a script whose lines are blank, comments, or at least two bytes
long (so the comment check does not panic), the parser returns exactly the
statements described by the spec: comment and blank lines are skipped,
consecutive content lines are concatenated with nothing in between, a
trimmed line whose last character is `;` ends a statement, a final
unterminated statement is returned as-is, and statements come in file
order; an all-comment script yields no statements rather than an error. -/
theorem claim_C7_statements (lines : List String)
    (hg : ∀ l ∈ lines, good_line l = true) :
    parse_cql_lines lines = .ok (emptyToNone (stmts_of lines)) := by
  rw [parse_cql_lines, parse_loop_spec lines [] false hg, combine_nil_false]

/-- C7 witness: the spec's example script parses to exactly its two
statements. -/
theorem claim_C7_witness :
    parse_cql_lines
        ["-- comment", "create table t (a int);", "// c",
         "insert into t values (1);"] =
      .ok (some ["create table t (a int);", "insert into t values (1);"]) := by
  rw [claim_C7_statements
    ["-- comment", "create table t (a int);", "// c",
     "insert into t values (1);"] (by decide)]
  decide

/-- C10: the parser is not total. On a script whose only line is the single
one-byte character `;`, `is_cql_comment_line` takes the byte slice
`&line[..2]` of a one-byte string, so the run panics (modelled by `crash`)
instead of producing an `Ok` or `Err` value. -/
theorem claim_C10_parser_crash :
    is_cql_comment_line ";" = none
    ∧ parse_cql_lines [";"] = (Res.crash : Res (Option (List String))) := by
  decide

theorem good_line_of_skippable (l : String) (h : skippable_line l = true) :
    good_line l = true := by
  unfold skippable_line at h
  unfold good_line
  rcases Bool.or_eq_true_iff.mp h with h1 | h1
  · simp [h1]
  · have hc : is_cql_comment_line (strTrim l) = some true := by
      simpa using h1
    simp [hc]

theorem stmts_of_skippable (lines : List String)
    (h : ∀ l ∈ lines, skippable_line l = true) : stmts_of lines = [] := by
  induction lines with
  | nil => rfl
  | cons l ls ih =>
    have hl := h l (by simp)
    have hls : ∀ x ∈ ls, skippable_line x = true := fun x hx =>
      h x (List.mem_cons_of_mem l hx)
    unfold skippable_line at hl
    rcases Bool.or_eq_true_iff.mp hl with h1 | h1
    · simp only [stmts_of, h1, Bool.true_or, if_true]
      exact ih hls
    · have hc : is_cql_comment_line (strTrim l) = some true := by
        simpa using h1
      have hsc := spec_comment_of_some_true _ hc
      simp only [stmts_of, hsc, Bool.or_true, if_true]
      exact ih hls

/-- A script of blank and comment lines only parses to `Ok(None)`. -/
theorem parse_lines_skippable (lines : List String)
    (h : ∀ l ∈ lines, skippable_line l = true) :
    parse_cql_lines lines = .ok none := by
  rw [parse_cql_lines,
    parse_loop_spec lines [] false
      (fun l hl => good_line_of_skippable l (h l hl)),
    combine_nil_false, stmts_of_skippable lines h]
  rfl

/-! ## Selector lemmas -/

/-- Whether a directory entry is an eligible candidate for the given
direction, and with which id: it must be a directory, its name part before
the first `_` must parse as a `u64`, and its net state must be 0 (up) or 1
(down). -/
def entry_candidate (history : List (Nat × Int)) (up : Bool) (e : DirEntry) :
    Option Nat :=
  if e.isDir then
    match parseU64 (idPart e.name) with
    | some ts =>
      if (up && historyGet history ts == 0) ||
          (!up && historyGet history ts == 1) then some ts
      else none
    | none => none
  else none

theorem entry_candidate_some (history : List (Nat × Int)) (up : Bool)
    (e : DirEntry) (ts : Nat) (h : entry_candidate history up e = some ts) :
    e.isDir = true ∧ parseU64 (idPart e.name) = some ts ∧
      ((up && historyGet history ts == 0) ||
        (!up && historyGet history ts == 1)) = true := by
  unfold entry_candidate at h
  by_cases hd : e.isDir
  · rw [if_pos hd] at h
    cases hp : parseU64 (idPart e.name) with
    | none =>
      simp only [hp] at h
      exact absurd h (by simp)
    | some ts' =>
      simp only [hp] at h
      by_cases hc : ((up && historyGet history ts' == 0) ||
          (!up && historyGet history ts' == 1)) = true
      · rw [if_pos hc] at h
        have hts : ts' = ts := Option.some.inj h
        subst hts
        exact ⟨hd, rfl, hc⟩
      · rw [if_neg hc] at h
        simp at h
  · rw [if_neg hd] at h
    exact absurd h (by simp)

/-- Processing an eligible entry parses its script file. -/
theorem filter_collect_cons_eligible (m : Migrator) (up : Bool)
    (history : List (Nat × Int)) (e : DirEntry) (ts : Nat)
    (rest : List (Except IOErr DirEntry))
    (hent : entry_candidate history up e = some ts) :
    filter_collect m up history (.ok e :: rest) =
      match parse_cql_file m (entry_path e up) with
      | .crash => .crash
      | .err er => .err er
      | .ok none =>
        .err (.parseMigrationFile ("no CQL found in " ++ entry_path e up))
      | .ok (some qs) =>
        match filter_collect m up history rest with
        | .ok acc => .ok ((ts, qs) :: acc)
        | r => r := by
  obtain ⟨hd, hp, hc⟩ := entry_candidate_some history up e ts hent
  simp only [filter_collect, hd, Bool.not_true, Bool.false_eq_true, if_false,
    hp, hc, if_true]

/-- `collect` over a concatenation: a clean prefix contributes its
candidates in front, and any failure in the suffix is the overall result. -/
theorem filter_collect_append (m : Migrator) (up : Bool)
    (history : List (Nat × Int)) (xs ys : List (Except IOErr DirEntry))
    (acc : List (Nat × List String))
    (hxs : filter_collect m up history xs = .ok acc) :
    filter_collect m up history (xs ++ ys) =
      match filter_collect m up history ys with
      | .ok acc2 => .ok (acc ++ acc2)
      | r => r := by
  induction xs generalizing acc with
  | nil =>
    have hacc : acc = [] := by
      have := hxs
      simp only [filter_collect] at this
      exact (Res.ok.inj this).symm
    subst hacc
    simp only [List.nil_append]
    cases filter_collect m up history ys <;> simp
  | cons x xs ih =>
    cases x with
    | error e =>
      exact absurd hxs (by simp [filter_collect])
    | ok e =>
      by_cases hd : e.isDir
      · cases hp : parseU64 (idPart e.name) with
        | none =>
          rw [show filter_collect m up history (Except.ok e :: xs) =
              filter_collect m up history xs from by
            simp only [filter_collect, hd, Bool.not_true, Bool.false_eq_true,
              if_false, hp]] at hxs
          rw [show filter_collect m up history ((Except.ok e :: xs) ++ ys) =
              filter_collect m up history (xs ++ ys) from by
            simp only [List.cons_append, filter_collect, hd, Bool.not_true,
              Bool.false_eq_true, if_false, hp, List.append_eq]]
          exact ih acc hxs
        | some ts =>
          by_cases hc : ((up && historyGet history ts == 0) ||
              (!up && historyGet history ts == 1)) = true
          · have hstep : ∀ zs, filter_collect m up history (Except.ok e :: zs) =
                match parse_cql_file m (entry_path e up) with
                | .crash => .crash
                | .err er => .err er
                | .ok none =>
                  .err (.parseMigrationFile
                    ("no CQL found in " ++ entry_path e up))
                | .ok (some qs) =>
                  match filter_collect m up history zs with
                  | .ok acc2 => .ok ((ts, qs) :: acc2)
                  | r => r := by
              intro zs
              simp only [filter_collect, hd, Bool.not_true, Bool.false_eq_true,
                if_false, hp, hc, if_true]
            rw [hstep xs] at hxs
            rw [List.cons_append, hstep (xs ++ ys)]
            cases hpf : parse_cql_file m (entry_path e up) with
            | crash => rw [hpf] at hxs; exact absurd hxs (by simp)
            | err er => rw [hpf] at hxs; exact absurd hxs (by simp)
            | ok o =>
              cases o with
              | none => rw [hpf] at hxs; exact absurd hxs (by simp)
              | some qs =>
                rw [hpf] at hxs
                cases hrest : filter_collect m up history xs with
                | crash => rw [hrest] at hxs; exact absurd hxs (by simp)
                | err er => rw [hrest] at hxs; exact absurd hxs (by simp)
                | ok acc1 =>
                  rw [hrest] at hxs
                  have hacc : acc = (ts, qs) :: acc1 :=
                    (Res.ok.inj hxs).symm
                  subst hacc
                  rw [ih acc1 hrest]
                  cases filter_collect m up history ys <;> simp
          · rw [show filter_collect m up history (Except.ok e :: xs) =
                filter_collect m up history xs from by
              simp only [filter_collect, hd, Bool.not_true, Bool.false_eq_true,
                if_false, hp, hc]] at hxs
            rw [show filter_collect m up history ((Except.ok e :: xs) ++ ys) =
                filter_collect m up history (xs ++ ys) from by
              simp only [List.cons_append, filter_collect, hd, Bool.not_true,
                Bool.false_eq_true, if_false, hp, hc, List.append_eq]]
            exact ih acc hxs
      · have hdf : e.isDir = false := Bool.not_eq_true _ |>.mp hd
        rw [show filter_collect m up history (Except.ok e :: xs) =
            filter_collect m up history xs from by
          simp only [filter_collect, hdf, Bool.not_false, if_true]] at hxs
        rw [show filter_collect m up history ((Except.ok e :: xs) ++ ys) =
            filter_collect m up history (xs ++ ys) from by
          simp only [List.cons_append, filter_collect, hdf, Bool.not_false,
            if_true, List.append_eq]]
        exact ih acc hxs

/-- C8: when the entries before an eligible candidate process cleanly and
that candidate's script file contains only blank and comment lines, the
selection fails with a `ParseMigrationFile` error naming that script's path,
and the whole operation returns that error with an empty trace — no
statement of any candidate has been executed against the store. -/
theorem claim_C8_empty_script (m : Migrator) (up : Bool) (n : Option Nat)
    (history : List (Nat × Int)) (pre post : List (Except IOErr DirEntry))
    (ent : DirEntry) (ts : Nat) (acc : List (Nat × List String))
    (lines : List String)
    (hdir : m.dir = .ok (pre ++ .ok ent :: post))
    (hhist : get_migration_history m.getAll = .ok history)
    (hpre : filter_collect m up history pre = .ok acc)
    (hent : entry_candidate history up ent = some ts)
    (hfile : m.files (entry_path ent up) = .ok lines)
    (hbad : ∀ l ∈ lines, skippable_line l = true) :
    filter_migrations m (pre ++ .ok ent :: post) history up =
      .err (.parseMigrationFile ("no CQL found in " ++ entry_path ent up))
    ∧ migrate_n m up n =
      (.err (.parseMigrationFile ("no CQL found in " ++ entry_path ent up)),
       []) := by
  have hparse : parse_cql_file m (entry_path ent up) = .ok none := by
    simp only [parse_cql_file, hfile]
    exact parse_lines_skippable lines hbad
  have hcol : filter_collect m up history (pre ++ .ok ent :: post) =
      .err (.parseMigrationFile ("no CQL found in " ++ entry_path ent up)) := by
    rw [filter_collect_append m up history pre _ acc hpre,
      filter_collect_cons_eligible m up history ent ts post hent, hparse]
  have hfil : filter_migrations m (pre ++ .ok ent :: post) history up =
      .err (.parseMigrationFile ("no CQL found in " ++ entry_path ent up)) := by
    simp only [filter_migrations, hcol]
  refine ⟨hfil, ?_⟩
  simp only [migrate_n, hdir, hhist, hfil]

/-- Concrete environment whose single migration has an all-comment script. -/
def mC8 : Migrator where
  dir := .ok [.ok ⟨"100_a", true⟩]
  files := fun p =>
    if p == "100_a/up.cql" then .ok ["-- nothing here"]
    else .error "missing"
  getAll := .ok none
  execRes := fun _ _ => none
  addRes := fun _ _ => none

/-- C8 witness: an all-comment `up.cql` makes `migrate_up` fail with the
`ParseMigrationFile` error naming it, with no store side effects. -/
theorem claim_C8_witness :
    migrate_up mC8 =
      (.err (.parseMigrationFile "no CQL found in 100_a/up.cql"), []) := by
  have h := claim_C8_empty_script mC8 true none [] [] []
    ⟨"100_a", true⟩ 100 [] ["-- nothing here"]
    rfl rfl rfl (by decide) rfl (by decide)
  rw [show migrate_up mC8 = migrate_n mC8 true none from rfl, h.2]
  decide

/-- C9 (amended): a failure to open the migrations directory and a failure
to open an eligible candidate's script file are both returned to the caller
as `Error::Io` with no store side effects; but an error produced while
reading an individual directory entry is `unwrap`ped and panics instead of
being returned. -/
theorem claim_C9_io_errors (m : Migrator) (up : Bool) (n : Option Nat) :
    (∀ e, m.dir = .error e → migrate_n m up n = (.err (.io e), []))
    ∧ (∀ history pre post ent ts acc ioe,
        m.dir = .ok (pre ++ .ok ent :: post) →
        get_migration_history m.getAll = .ok history →
        filter_collect m up history pre = .ok acc →
        entry_candidate history up ent = some ts →
        m.files (entry_path ent up) = .error ioe →
        migrate_n m up n = (.err (.io ioe), []))
    ∧ (∀ history pre post ioe acc,
        m.dir = .ok (pre ++ .error ioe :: post) →
        get_migration_history m.getAll = .ok history →
        filter_collect m up history pre = .ok acc →
        migrate_n m up n = (.crash, [])) := by
  refine ⟨?_, ?_, ?_⟩
  · intro e hdir
    simp only [migrate_n, hdir]
  · intro history pre post ent ts acc ioe hdir hhist hpre hent hfile
    have hparse : parse_cql_file m (entry_path ent up) = .err (.io ioe) := by
      simp only [parse_cql_file, hfile]
    have hcol : filter_collect m up history (pre ++ .ok ent :: post) =
        .err (.io ioe) := by
      rw [filter_collect_append m up history pre _ acc hpre,
        filter_collect_cons_eligible m up history ent ts post hent, hparse]
    have hfil : filter_migrations m (pre ++ .ok ent :: post) history up =
        .err (.io ioe) := by
      simp only [filter_migrations, hcol]
    simp only [migrate_n, hdir, hhist, hfil]
  · intro history pre post ioe acc hdir hhist hpre
    have hcol : filter_collect m up history (pre ++ .error ioe :: post) =
        .crash := by
      rw [filter_collect_append m up history pre _ acc hpre]
      rfl
    have hfil : filter_migrations m (pre ++ .error ioe :: post) history up =
        .crash := by
      simp only [filter_migrations, hcol]
    simp only [migrate_n, hdir, hhist, hfil]

/-- Concrete environment in which reading the single directory entry fails. -/
def mC9 : Migrator where
  dir := .ok [.error "boom"]
  files := fun _ => .error "missing"
  getAll := .ok none
  execRes := fun _ _ => none
  addRes := fun _ _ => none

/-- Concrete environment in which opening the migrations directory fails. -/
def mC9dir : Migrator where
  dir := .error "denied"
  files := fun _ => .error "missing"
  getAll := .ok none
  execRes := fun _ _ => none
  addRes := fun _ _ => none

/-- C9 counterexample: a read error on a directory entry makes `migrate_up`
panic (the `unwrap` in `filter_migrations`): the run ends in `crash`, which
is not an error result, so not every filesystem error is returned to the
caller. -/
theorem claim_C9_cex :
    migrate_up mC9 = (Res.crash, []) := by
  decide

/-- C9 witness: a failure to open the migrations directory is surfaced
verbatim as an `Io` error. -/
theorem claim_C9_witness :
    migrate_up mC9dir = (.err (.io "denied"), []) := by
  exact (claim_C9_io_errors mC9dir true none).1 "denied" rfl

/-- When `collect` succeeds over a clean entry list, the ids collected, in
directory order, are exactly those of the eligible entries. -/
theorem filter_collect_ok_ids (m : Migrator) (up : Bool)
    (history : List (Nat × Int)) (entries : List DirEntry)
    (res : List (Nat × List String))
    (h : filter_collect m up history (entries.map Except.ok) = .ok res) :
    res.map Prod.fst = entries.filterMap (entry_candidate history up) := by
  induction entries generalizing res with
  | nil =>
    have : res = [] := by
      have h2 := h
      simp only [List.map_nil, filter_collect] at h2
      exact (Res.ok.inj h2).symm
    subst this
    simp
  | cons e es ih =>
    rw [List.map_cons] at h
    by_cases hd : e.isDir
    · cases hp : parseU64 (idPart e.name) with
      | none =>
        rw [show filter_collect m up history
            (Except.ok e :: es.map Except.ok) =
            filter_collect m up history (es.map Except.ok) from by
          simp only [filter_collect, hd, Bool.not_true, Bool.false_eq_true,
            if_false, hp]] at h
        rw [List.filterMap_cons,
          show entry_candidate history up e = none from by
            simp only [entry_candidate, hd, if_true, hp]]
        exact ih res h
      | some ts =>
        by_cases hc : ((up && historyGet history ts == 0) ||
            (!up && historyGet history ts == 1)) = true
        · have hcand : entry_candidate history up e = some ts := by
            simp only [entry_candidate, hd, if_true, hp, hc]
          rw [filter_collect_cons_eligible m up history e ts
            (es.map Except.ok) hcand] at h
          cases hpf : parse_cql_file m (entry_path e up) with
          | crash => rw [hpf] at h; exact absurd h (by simp)
          | err er => rw [hpf] at h; exact absurd h (by simp)
          | ok o =>
            cases o with
            | none => rw [hpf] at h; exact absurd h (by simp)
            | some qs =>
              rw [hpf] at h
              cases hrest : filter_collect m up history (es.map Except.ok) with
              | crash => rw [hrest] at h; exact absurd h (by simp)
              | err er => rw [hrest] at h; exact absurd h (by simp)
              | ok acc =>
                rw [hrest] at h
                have hres : res = (ts, qs) :: acc := (Res.ok.inj h).symm
                subst hres
                rw [List.map_cons, List.filterMap_cons, hcand, ih acc hrest]
        · rw [show filter_collect m up history
              (Except.ok e :: es.map Except.ok) =
              filter_collect m up history (es.map Except.ok) from by
            simp only [filter_collect, hd, Bool.not_true, Bool.false_eq_true,
              if_false, hp, hc]] at h
          rw [List.filterMap_cons,
            show entry_candidate history up e = none from by
              simp only [entry_candidate, hd, if_true, hp, if_neg hc]]
          exact ih res h
    · have hdf : e.isDir = false := Bool.not_eq_true _ |>.mp hd
      rw [show filter_collect m up history
          (Except.ok e :: es.map Except.ok) =
          filter_collect m up history (es.map Except.ok) from by
        simp only [filter_collect, hdf, Bool.not_false, if_true]] at h
      rw [List.filterMap_cons,
        show entry_candidate history up e = none from by
          simp only [entry_candidate, hdf, Bool.false_eq_true, if_false]]
      exact ih res h

/-- C4: when selection succeeds with candidate list `res` over entries whose
eligible ids are pairwise distinct (the data model requires MigrationIds
unique per directory), the candidate ids are exactly the ids of the
subdirectories whose net state is 0 (up) or 1 (down) — non-directories and
names whose prefix before the first `_` does not parse are silently
skipped — sorted strictly ascending for up and strictly descending for
down. -/
theorem claim_C4_selection (m : Migrator) (entries : List DirEntry)
    (history : List (Nat × Int)) (up : Bool) (res : List (Nat × List String))
    (hres : filter_migrations m (entries.map Except.ok) history up =
      .ok (some res))
    (hnd : (entries.filterMap (entry_candidate history up)).Nodup) :
    (res.map Prod.fst).Perm (entries.filterMap (entry_candidate history up))
    ∧ (up = true → (res.map Prod.fst).Pairwise (· < ·))
    ∧ (up = false → (res.map Prod.fst).Pairwise (· > ·)) := by
  unfold filter_migrations at hres
  cases hcol : filter_collect m up history (entries.map Except.ok) with
  | crash =>
    simp only [hcol] at hres
    exact absurd hres (by simp)
  | err e =>
    simp only [hcol] at hres
    exact absurd hres (by simp)
  | ok res0 =>
    simp only [hcol] at hres
    by_cases hemp : res0.isEmpty
    · rw [if_pos hemp] at hres
      exact absurd (Res.ok.inj hres) (by simp)
    · rw [if_neg hemp] at hres
      have hids := filter_collect_ok_ids m up history entries res0 hcol
      cases up with
      | true =>
        rw [if_pos rfl] at hres
        have hsort : res = List.insertionSort (fun a b => a.1 ≤ b.1) res0 :=
          (Option.some.inj (Res.ok.inj hres)).symm
        have hperm0 : res.Perm res0 := by
          rw [hsort]; exact List.perm_insertionSort _ res0
        have hperm : (res.map Prod.fst).Perm
            (entries.filterMap (entry_candidate history true)) := by
          rw [← hids]; exact hperm0.map _
        have hsorted : List.Sorted
            (fun a b : Nat × List String => a.1 ≤ b.1) res := by
          rw [hsort]
          haveI : IsTotal (Nat × List String) (fun a b => a.1 ≤ b.1) :=
            ⟨fun a b => Nat.le_total a.1 b.1⟩
          haveI : IsTrans (Nat × List String) (fun a b => a.1 ≤ b.1) :=
            ⟨fun a b c hab hbc => Nat.le_trans hab hbc⟩
          exact List.sorted_insertionSort _ res0
        have hle : (res.map Prod.fst).Pairwise (· ≤ ·) := by
          rw [List.pairwise_map]; exact hsorted
        have hnd2 : (res.map Prod.fst).Nodup := hperm.symm.nodup hnd
        refine ⟨hperm, fun _ => ?_, fun habs => by exact absurd habs (by simp)⟩
        exact (hle.and hnd2).imp (fun h => Nat.lt_of_le_of_ne h.1 h.2)
      | false =>
        rw [if_neg (by simp)] at hres
        have hsort : res = List.insertionSort (fun a b => b.1 ≤ a.1) res0 :=
          (Option.some.inj (Res.ok.inj hres)).symm
        have hperm0 : res.Perm res0 := by
          rw [hsort]; exact List.perm_insertionSort _ res0
        have hperm : (res.map Prod.fst).Perm
            (entries.filterMap (entry_candidate history false)) := by
          rw [← hids]; exact hperm0.map _
        have hsorted : List.Sorted
            (fun a b : Nat × List String => b.1 ≤ a.1) res := by
          rw [hsort]
          haveI : IsTotal (Nat × List String) (fun a b => b.1 ≤ a.1) :=
            ⟨fun a b => Nat.le_total b.1 a.1⟩
          haveI : IsTrans (Nat × List String) (fun a b => b.1 ≤ a.1) :=
            ⟨fun a b c hab hbc => Nat.le_trans hbc hab⟩
          exact List.sorted_insertionSort _ res0
        have hge : (res.map Prod.fst).Pairwise (fun a b => b ≤ a) := by
          rw [List.pairwise_map]; exact hsorted
        have hnd2 : (res.map Prod.fst).Nodup := hperm.symm.nodup hnd
        refine ⟨hperm, fun habs => by exact absurd habs (by simp), fun _ => ?_⟩
        exact (hge.and hnd2).imp
          (fun h => Nat.lt_of_le_of_ne h.1 (fun hh => h.2 hh.symm))

/-- Concrete environment for the selection witness: directory entries out
of id order, one of them non-numeric. -/
def mC4 : Migrator where
  dir := .ok [.ok ⟨"200_b", true⟩, .ok ⟨"100_a", true⟩, .ok ⟨"junk", true⟩]
  files := fun p =>
    if p == "100_a/up.cql" then .ok ["create a;"]
    else if p == "200_b/up.cql" then .ok ["create b;"]
    else .error "missing"
  getAll := .ok none
  execRes := fun _ _ => none
  addRes := fun _ _ => none

/-- C4 witness: with entries 200, 100 and a non-numeric directory and an
empty history, the up candidates are 100 then 200 — a permutation of the
eligible ids, strictly ascending. -/
theorem claim_C4_witness :
    (([(100, ["create a;"]), (200, ["create b;"])].map Prod.fst).Perm
      ([⟨"200_b", true⟩, ⟨"100_a", true⟩, ⟨"junk", true⟩].filterMap
        (entry_candidate [] true)))
    ∧ (([((100 : Nat), ["create a;"]), (200, ["create b;"])].map
        Prod.fst).Pairwise (· < ·)) := by
  have h := claim_C4_selection mC4
    [⟨"200_b", true⟩, ⟨"100_a", true⟩, ⟨"junk", true⟩] [] true
    [(100, ["create a;"]), (200, ["create b;"])] (by decide) (by decide)
  exact ⟨h.1, h.2.1 rfl⟩

/-! ## Store failure behaviour -/

/-- Total number of statements in a candidate list. -/
def total_stmts (cands : List (Nat × List String)) : Nat :=
  (cands.map (fun c => c.2.length)).sum

/-- Trace left behind when the `k`-th statement execution (counting from 0
across the whole run) fails: every candidate whose statements all come
before it contributes its statements and (when `addH`) its history event;
the candidate containing position `k` contributes only its first statements
and no history event; later candidates contribute nothing. -/
def partial_trace (up addH : Bool) :
    List (Nat × List String) → Nat → List Ev
  | [], _ => []
  | (ts, qs) :: rest, k =>
    if k < qs.length then (qs.take k).map Ev.exec
    else
      (qs.map Ev.exec ++ (if addH then [Ev.add ts up] else [])) ++
        partial_trace up addH rest (k - qs.length)

theorem numExec_append (a b : List Ev) :
    numExec (a ++ b) = numExec a + numExec b := by
  simp [numExec, List.filter_append]

theorem numExec_map_exec (qs : List String) :
    numExec (qs.map Ev.exec) = qs.length := by
  induction qs with
  | nil => rfl
  | cons q qs ih => simpa [numExec, Ev.isExec] using ih

theorem numExec_hist (ts : Nat) (up : Bool) (addH : Bool) :
    numExec (if addH then [Ev.add ts up] else []) = 0 := by
  cases addH <;> simp [numExec, Ev.isExec]

theorem exec_queries_ok_upto (m : Migrator) (k : Nat)
    (hex : ∀ j q, j ≠ k → m.execRes j q = none) :
    ∀ (qs : List String) (tr : List Ev) (c : Nat), numExec tr = c →
      c + qs.length ≤ k →
      exec_queries m tr qs = (.ok (), tr ++ qs.map Ev.exec) := by
  intro qs
  induction qs with
  | nil => intro tr c _ _; simp [exec_queries]
  | cons q qs ih =>
    intro tr c hc hle
    have hcne : c ≠ k := by
      simp only [List.length_cons] at hle
      omega
    have h1 : m.execRes (numExec tr) q = none := by
      rw [hc]; exact hex c q hcne
    rw [show exec_queries m tr (q :: qs) =
        exec_queries m (tr ++ [Ev.exec q]) qs from by
      simp only [exec_queries, h1]]
    have hc2 : numExec (tr ++ [Ev.exec q]) = c + 1 := by
      rw [numExec_append, hc]; rfl
    have hle2 : (c + 1) + qs.length ≤ k := by
      simp only [List.length_cons] at hle
      omega
    rw [ih (tr ++ [Ev.exec q]) (c + 1) hc2 hle2]
    simp

theorem exec_queries_fail (m : Migrator) (k : Nat) (er : SErr)
    (hex : ∀ j q, j ≠ k → m.execRes j q = none)
    (hexk : ∀ q, m.execRes k q = some er) :
    ∀ (qs : List String) (tr : List Ev) (c : Nat), numExec tr = c → c ≤ k →
      k < c + qs.length →
      exec_queries m tr qs =
        (.err (.store er), tr ++ ((qs.take (k - c)).map Ev.exec)) := by
  intro qs
  induction qs with
  | nil =>
    intro tr c _ hck hlt
    exact absurd hlt (by simp; omega)
  | cons q qs ih =>
    intro tr c hc hck hlt
    by_cases hck2 : c = k
    · have h1 : m.execRes (numExec tr) q = some er := by
        rw [hc, hck2]; exact hexk q
      have hk0 : k - c = 0 := by omega
      rw [show exec_queries m tr (q :: qs) = (.err (.store er), tr) from by
        simp only [exec_queries, h1]]
      rw [hk0]
      simp
    · have hcne : c < k := Nat.lt_of_le_of_ne hck hck2
      have h1 : m.execRes (numExec tr) q = none := by
        rw [hc]; exact hex c q hck2
      rw [show exec_queries m tr (q :: qs) =
          exec_queries m (tr ++ [Ev.exec q]) qs from by
        simp only [exec_queries, h1]]
      have hc2 : numExec (tr ++ [Ev.exec q]) = c + 1 := by
        rw [numExec_append, hc]; rfl
      have hck3 : c + 1 ≤ k := hcne
      have hlt2 : k < (c + 1) + qs.length := by
        simp only [List.length_cons] at hlt
        omega
      rw [ih (tr ++ [Ev.exec q]) (c + 1) hc2 hck3 hlt2]
      have htake : (q :: qs).take (k - c) = q :: qs.take (k - (c + 1)) := by
        have : k - c = (k - (c + 1)) + 1 := by omega
        rw [this]
        rfl
      rw [htake]
      simp

theorem run_migrations_fail (m : Migrator) (k : Nat) (er : SErr)
    (hex : ∀ j q, j ≠ k → m.execRes j q = none)
    (hexk : ∀ q, m.execRes k q = some er)
    (hadd : ∀ t u, m.addRes t u = none) (up addH : Bool) :
    ∀ (cands : List (Nat × List String)) (tr : List Ev) (c : Nat),
      numExec tr = c → c ≤ k → k < c + total_stmts cands →
      run_migrations m tr up addH cands =
        (.err (.store er), tr ++ partial_trace up addH cands (k - c)) := by
  intro cands
  induction cands with
  | nil =>
    intro tr c _ hck hlt
    exact absurd hlt (by simp [total_stmts]; omega)
  | cons cand rest ih =>
    obtain ⟨ts, qs⟩ := cand
    intro tr c hc hck hlt
    by_cases hin : k - c < qs.length
    · -- the failing statement is inside this candidate
      have hfail := exec_queries_fail m k er hex hexk qs tr c hc hck
        (by omega)
      rw [show run_migrations m tr up addH ((ts, qs) :: rest) =
          (.err (.store er), tr ++ (qs.take (k - c)).map Ev.exec) from by
        simp only [run_migrations, migrate_one, hfail]]
      rw [show partial_trace up addH ((ts, qs) :: rest) (k - c) =
          (qs.take (k - c)).map Ev.exec from by
        simp only [partial_trace, hin, if_true]]
    · -- this candidate completes; the failure is later
      have hqs : c + qs.length ≤ k := by omega
      have hok := exec_queries_ok_upto m k hex qs tr c hc hqs
      have hone : migrate_one m tr ts qs up addH =
          (.ok (), (tr ++ qs.map Ev.exec) ++
            (if addH then [Ev.add ts up] else [])) := by
        cases addH <;> simp [migrate_one, hok, hadd]
      set tr2 := (tr ++ qs.map Ev.exec) ++
        (if addH then [Ev.add ts up] else []) with htr2
      have hc2 : numExec tr2 = c + qs.length := by
        rw [htr2, numExec_append, numExec_append, numExec_map_exec,
          numExec_hist, hc]
        omega
      have hck2 : c + qs.length ≤ k := hqs
      have hlt2 : k < (c + qs.length) + total_stmts rest := by
        simp only [total_stmts, List.map_cons, List.sum_cons] at hlt
        simp only [total_stmts]
        omega
      have hrec := ih tr2 (c + qs.length) hc2 hck2 hlt2
      rw [show run_migrations m tr up addH ((ts, qs) :: rest) =
          run_migrations m tr2 up addH rest from by
        simp only [run_migrations, hone]]
      rw [hrec]
      rw [show partial_trace up addH ((ts, qs) :: rest) (k - c) =
          (qs.map Ev.exec ++ (if addH then [Ev.add ts up] else [])) ++
            partial_trace up addH rest ((k - c) - qs.length) from by
        simp only [partial_trace, hin, if_false]]
      have harith : (k - c) - qs.length = k - (c + qs.length) := by omega
      rw [harith, htr2]
      simp

/-- C5: when the store accepts the first `k` statement executions and fails
on the next one (with `k` inside the executed prefix), the operation returns
exactly that store error; the trace shows that candidates fully before the
failure keep their statements and history events (nothing is rolled back),
the candidate whose statement failed has only its earlier statements and no
history event, and no statement of any later candidate is executed. -/
theorem claim_C5_store_failure (m : Migrator) (k : Nat) (er : SErr)
    (hex : ∀ j q, j ≠ k → m.execRes j q = none)
    (hexk : ∀ q, m.execRes k q = some er)
    (hadd : ∀ t u, m.addRes t u = none)
    (migs : List (Nat × List String)) (up : Bool) (n : Option Nat)
    (hk : k < total_stmts (migs.take (take_count migs.length n))) :
    execute_migrations m [] migs up n =
      (.err (.store er),
       partial_trace up (up || (take_count migs.length n != migs.length))
         (migs.take (take_count migs.length n)) k) := by
  have hrun : ∀ (cands : List (Nat × List String)) (addH : Bool),
      k < total_stmts cands →
      run_migrations m [] up addH cands =
        (.err (.store er), partial_trace up addH cands k) := by
    intro cands addH hlt
    have h := run_migrations_fail m k er hex hexk hadd up addH cands [] 0 rfl
      (Nat.zero_le k) (by omega)
    simpa using h
  cases migs with
  | nil =>
    rw [List.take_nil] at hk
    exact absurd hk (by simp [total_stmts])
  | cons m0 rest =>
    cases n with
    | none =>
      have htc : take_count (m0 :: rest).length none = (m0 :: rest).length :=
        rfl
      rw [htc] at hk ⊢
      rw [List.take_length] at hk
      have h1 := hrun (m0 :: rest) up hk
      simp [execute_migrations, h1]
    | some v =>
      by_cases hv : v < (m0 :: rest).length
      · have htc : take_count (m0 :: rest).length (some v) = v := by
          simp only [take_count]
          rw [if_pos hv]
        rw [htc] at hk ⊢
        have hne : (v != (m0 :: rest).length) = true :=
          bne_iff_ne.mpr (Nat.ne_of_lt hv)
        have h1 := hrun ((m0 :: rest).take v) true hk
        simp only [execute_migrations]
        rw [dif_pos hv]
        simp only [List.length_cons] at hne
        simp [h1, hne]
      · have htc : take_count (m0 :: rest).length (some v) =
            (m0 :: rest).length := by
          simp only [take_count]
          rw [if_neg hv]
        rw [htc] at hk ⊢
        rw [List.take_length] at hk
        have h1 := hrun (m0 :: rest) up hk
        simp only [execute_migrations]
        rw [dif_neg hv]
        simp [h1]

/-- Concrete environment whose store rejects the second statement
execution of a run. -/
def mC5 : Migrator where
  dir := .ok []
  files := fun _ => .error "missing"
  getAll := .ok none
  execRes := fun j _ => if j == 1 then some "exec boom" else none
  addRes := fun _ _ => none

/-- C5 witness: running candidates 100 (two statements) and 200 against a
store that fails on the second statement keeps the first executed statement,
records no history event for 100, touches nothing of 200, and returns the
store error. -/
theorem claim_C5_witness :
    execute_migrations mC5 [] [(100, ["a;", "b;"]), (200, ["c;"])] true
        none =
      (.err (.store "exec boom"), [Ev.exec "a;"]) := by
  have hex : ∀ j q, j ≠ 1 → mC5.execRes j q = none := by
    intro j q hj
    show (if j == 1 then some "exec boom" else none) = none
    rw [if_neg (by simpa using hj)]
  have h := claim_C5_store_failure mC5 1 "exec boom" hex (fun q => rfl)
    (fun _ _ => rfl) [(100, ["a;", "b;"]), (200, ["c;"])] true none
    (by decide)
  rw [h]
  decide
